import Mathlib

/-!
Shallow embedding of the inventory-compare repository
(`src/comparison.py`, `src/data_loaders.py`).

Python strings are modelled as lists of character codes (`List Nat`);
nullable cell values (a string or `None`/`NaN`) as `Option Str`.
The ASCII behaviour of `str.strip`, `str.upper`, `str.lower`,
`str.isdigit`, `str.isalnum` and of the regexes `[^\w\s]` and `\s+`
is modelled on the ASCII character classes.
-/

/-- A Python string, as its list of character codes. -/
abbrev Str := List Nat

/-- Codes of the characters removed by Python `str.strip()`
(space, tab, newline, carriage return, vertical tab, form feed). -/
def isSpaceCode (n : Nat) : Bool :=
  n = 32 || n = 9 || n = 10 || n = 13 || n = 11 || n = 12

/-- ASCII decimal digit, as tested by `str.isdigit` on ASCII input. -/
def isDigitCode (n : Nat) : Bool := 48 ≤ n && n ≤ 57

/-- ASCII uppercase letter. -/
def isUpperCode (n : Nat) : Bool := 65 ≤ n && n ≤ 90

/-- ASCII lowercase letter. -/
def isLowerCode (n : Nat) : Bool := 97 ≤ n && n ≤ 122

/-- ASCII letter or digit, as tested by `str.isalnum` / `c.isalnum()`. -/
def isAlnumCode (n : Nat) : Bool := isDigitCode n || isUpperCode n || isLowerCode n

/-- A `\w` regex character: letter, digit or underscore. -/
def isWordCode (n : Nat) : Bool := isAlnumCode n || n = 95

/-- Python `str.upper` on one ASCII character code. -/
def toUpperCode (n : Nat) : Nat := if isLowerCode n then n - 32 else n

/-- Python `str.lower` on one ASCII character code. -/
def toLowerCode (n : Nat) : Nat := if isUpperCode n then n + 32 else n

/-- Strip leading whitespace (left part of `str.strip()`). -/
def lstripStr (l : Str) : Str := l.dropWhile isSpaceCode

/-- Strip trailing whitespace (right part of `str.strip()`). -/
def rstripStr (l : Str) : Str := (l.reverse.dropWhile isSpaceCode).reverse

/-- Python `str.strip()`: remove whitespace from both ends. -/
def stripStr (l : Str) : Str := rstripStr (lstripStr l)

/-- Python `str.upper()` (ASCII model). -/
def upperStr (l : Str) : Str := l.map toUpperCode

/-- Python `str.lower()` (ASCII model). -/
def lowerStr (l : Str) : Str := l.map toLowerCode

/-- Python `str.isdigit()`: nonempty and all digits. -/
def isDigitStr (l : Str) : Bool := !l.isEmpty && l.all isDigitCode

/-- Fuel-driven helper for `natDigits` (structural recursion on the
fuel; any fuel above the number itself is sufficient). -/
def natDigitsAux : Nat → Nat → Str
  | 0, _ => []
  | fuel + 1, n =>
    if n < 10 then [48 + n] else natDigitsAux fuel (n / 10) ++ [48 + n % 10]

/-- Decimal digits of a natural number, most significant first:
the character list of Python `str(n)` for a nonnegative int `n`. -/
def natDigits (n : Nat) : Str := natDigitsAux (n + 1) n

/-- Python `int(s)` on a string of decimal digits. -/
def parseDigits (l : Str) : Nat := l.foldl (fun a c => 10 * a + (c - 48)) 0

/-- `comparison.normalize_stock_number`: empty string on null input;
otherwise strip and uppercase, and if the result is all digits,
round-trip it through `int` (dropping leading zeros). -/
def normalize_stock_number (stock_num : Option Str) : Str :=
  match stock_num with
  | none => []
  | some s =>
    let stock_str := upperStr (stripStr s)
    if isDigitStr stock_str then natDigits (parseDigits stock_str) else stock_str

/-- `comparison.normalize_vin`: empty string on null input; otherwise
strip, uppercase, and keep only the alphanumeric characters. -/
def normalize_vin (vin : Option Str) : Str :=
  match vin with
  | none => []
  | some s => (upperStr (stripStr s)).filter isAlnumCode

/-- Helper for `collapseWs`: the flag records whether the previous
character was whitespace (so further whitespace of the run is dropped). -/
def collapseWsAux : Bool → Str → Str
  | _, [] => []
  | prevSpace, c :: rest =>
    if isSpaceCode c then
      if prevSpace then collapseWsAux true rest else 32 :: collapseWsAux true rest
    else c :: collapseWsAux false rest

/-- Replace every maximal run of whitespace by one space
(the regex substitution `re.sub` of a whitespace run by a single space). -/
def collapseWs (l : Str) : Str := collapseWsAux false l

/-- `data_loaders.normalize_column_name`: empty on null; otherwise strip
and lowercase, replace each non-word non-space character with a space,
collapse whitespace runs to one space, and strip again. -/
def normalize_column_name (col_name : Option Str) : Str :=
  match col_name with
  | none => []
  | some s =>
    let a := lowerStr (stripStr s)
    let b := a.map (fun c => if !(isWordCode c || isSpaceCode c) then 32 else c)
    stripStr (collapseWs b)

/-- Whether `a` matches the beginning of `b` (helper for `isSubstrOf`). -/
def strMatchesAt : Str → Str → Bool
  | [], _ => true
  | _ :: _, [] => false
  | x :: xs, y :: ys => x == y && strMatchesAt xs ys

/-- Python `a in b` on strings: `a` occurs contiguously inside `b`. -/
def isSubstrOf (a b : Str) : Bool :=
  match b with
  | [] => a.isEmpty
  | _ :: ys => strMatchesAt a b || isSubstrOf a ys

/-- Helper for `splitWs`: `cur` is the current word, reversed. -/
def splitWsAux (cur : Str) : Str → List Str
  | [] => if cur.isEmpty then [] else [cur.reverse]
  | c :: rest =>
    if isSpaceCode c then
      if cur.isEmpty then splitWsAux [] rest else cur.reverse :: splitWsAux [] rest
    else splitWsAux (c :: cur) rest

/-- Python `str.split()`: maximal runs of non-whitespace characters. -/
def splitWs (l : Str) : List Str := splitWsAux [] l

/-- `data_loaders.calculate_similarity_score`: 1.0 on equal normalized
names, else 0.8 when one is a substring of the other, else the Jaccard
similarity of the whitespace-token sets (0.0 when a token set, or the
union, is empty). -/
def calculate_similarity_score (target candidate : Str) : ℚ :=
  let target_norm := normalize_column_name (some target)
  let candidate_norm := normalize_column_name (some candidate)
  if target_norm = candidate_norm then 1
  else if isSubstrOf target_norm candidate_norm || isSubstrOf candidate_norm target_norm then
    Rat.divInt 4 5
  else
    let target_words := (splitWs target_norm).toFinset
    let candidate_words := (splitWs candidate_norm).toFinset
    if target_words = ∅ ∨ candidate_words = ∅ then 0
    else if target_words ∪ candidate_words ≠ ∅ then
      Rat.divInt ((target_words ∩ candidate_words).card : Int)
        ((target_words ∪ candidate_words).card : Int)
    else 0

/-- The (alias, raw column) pairs in the encounter order of the two
nested loops of `data_loaders.find_best_column_match`. -/
def pairsOf (target_names available_columns : List Str) : List (Str × Str) :=
  target_names.flatMap (fun t => available_columns.map (fun c => (t, c)))

/-- Similarity score of one (alias, raw column) pair. -/
def scoreOf (p : Str × Str) : ℚ := calculate_similarity_score p.1 p.2

/-- One step of the best-match loop of `find_best_column_match`:
update the state when the pair's score is strictly better than the
best so far and reaches the minimum similarity. -/
def fbStep (min_similarity : ℚ) (st : Option Str × ℚ) (p : Str × Str) : Option Str × ℚ :=
  if st.2 < scoreOf p ∧ min_similarity ≤ scoreOf p then (some p.2, scoreOf p) else st

/-- `data_loaders.find_best_column_match`: fold the update step over all
(alias, raw column) pairs, starting from (no match, score 0.0). -/
def find_best_column_match (target_names available_columns : List Str)
    (min_similarity : ℚ) : Option Str × ℚ :=
  (pairsOf target_names available_columns).foldl (fbStep min_similarity) (none, 0)

/-- One loop iteration of `auto_detect_column_mapping`: run
`find_best_column_match` for the field's aliases with the default
threshold 0.3, then apply the Python `if matched_col:` truthiness
test, which drops both a `None` result and an empty-string column
name. -/
def truthyEntry (fc : Str × List Str) (df_columns : List Str) : Str × (Option Str × ℚ) :=
  let r := find_best_column_match fc.2 df_columns (Rat.divInt 3 10)
  match r.1 with
  | some c => if c.isEmpty then (fc.1, (none, 0)) else (fc.1, (some c, r.2))
  | none => (fc.1, (none, 0))

/-- `data_loaders.auto_detect_column_mapping` (mapping and confidence
dictionaries fused into one association list): one entry per semantic
field, each computed by `truthyEntry`. -/
def auto_detect_column_mapping (standard_columns : List (Str × List Str))
    (df_columns : List Str) : List (Str × (Option Str × ℚ)) :=
  standard_columns.map (fun fc => truthyEntry fc df_columns)

/-- A normalized inventory row: the semantic fields used by
`comparison.compare_inventories` (values may be null). -/
structure Row where
  stock : Option Str
  vin : Option Str
  status : Option Str
deriving DecidableEq

/-- Join key of a row: its normalized stock number. -/
def stockKey (r : Row) : Str := normalize_stock_number r.stock

/-- Normalized VIN of a row. -/
def vinNormOf (r : Row) : Str := normalize_vin r.vin

/-- A row of the merged table, tagged with the pandas merge indicator
(`both`, `left_only`, `right_only`). -/
inductive JRow where
  | both (a b : Row)
  | leftOnly (a : Row)
  | rightOnly (b : Row)
deriving DecidableEq

/-- Indicator test `_merge == 'both'`. -/
def JRow.isBothRow : JRow → Bool
  | .both _ _ => true
  | _ => false

/-- Indicator test `_merge == 'left_only'`. -/
def JRow.isLeftOnlyRow : JRow → Bool
  | .leftOnly _ => true
  | _ => false

/-- Indicator test `_merge == 'right_only'`. -/
def JRow.isRightOnlyRow : JRow → Bool
  | .rightOnly _ => true
  | _ => false

/-- Right-side rows matching the key of a left row `a`. -/
def keyMatchesOf (dfB : List Row) (a : Row) : List Row :=
  dfB.filter (fun b => decide (stockKey b = stockKey a))

/-- Contribution of one left row to the outer join: its `both` pairs,
or a single `leftOnly` row when nothing on the right shares its key. -/
def joinRowsFor (dfB : List Row) (a : Row) : List JRow :=
  if (keyMatchesOf dfB a).isEmpty then [JRow.leftOnly a]
  else (keyMatchesOf dfB a).map (fun b => JRow.both a b)

/-- The pandas full outer merge on the normalized stock-number key with
indicator: every (a, b) pair sharing a key yields a `both` row (cross
product on duplicated keys), unmatched left rows yield `leftOnly`,
unmatched right rows yield `rightOnly`. -/
def outerJoinByStock (dfA dfB : List Row) : List JRow :=
  (dfA.flatMap (joinRowsFor dfB))
  ++ ((dfB.filter (fun b => dfA.all (fun a => !decide (stockKey a = stockKey b)))).map
      JRow.rightOnly)

/-- VIN-mismatch filter on a merged row: both normalized VINs nonempty
and different. -/
def vinMismCond : JRow → Bool
  | .both a b => decide (vinNormOf a ≠ vinNormOf b) &&
      decide (vinNormOf a ≠ []) && decide (vinNormOf b ≠ [])
  | _ => false

/-- Status-mismatch filter on a merged row: both raw statuses non-null
and different (case-sensitive, unnormalized). -/
def statusMismCond : JRow → Bool
  | .both a b => a.status.isSome && b.status.isSome && decide (a.status ≠ b.status)
  | _ => false

/-- The summary-count dictionary of `compare_inventories`. -/
structure Summary where
  total_vauto : Nat
  total_reynolds : Nat
  exact_matches : Nat
  missing_in_reynolds : Nat
  missing_in_vauto : Nat
  vin_mismatches : Nat
  status_mismatches : Nat
deriving DecidableEq

/-- The result dictionary of `compare_inventories` (the five record
categories and the summary; the legacy alias keys are omitted). -/
structure CompareResult where
  exact_matches : List JRow
  missing_in_reynolds : List JRow
  missing_in_vauto : List JRow
  vin_mismatches : List JRow
  status_mismatches : List JRow
  summary : Summary
deriving DecidableEq

/-- The Python local `has_vin_*`: the vin column is present (always, in
the fixed semantic schema) and not all-null. -/
def hasVinCol (df : List Row) : Bool := df.any (fun r => r.vin.isSome)

/-- The Python local `exact_matches`: merged rows with indicator `both`. -/
def exactMatchesOf (df_vauto df_reynolds : List Row) : List JRow :=
  (outerJoinByStock df_vauto df_reynolds).filter JRow.isBothRow

/-- The Python local `missing_in_reynolds`: indicator `left_only`. -/
def missingInReynoldsOf (df_vauto df_reynolds : List Row) : List JRow :=
  (outerJoinByStock df_vauto df_reynolds).filter JRow.isLeftOnlyRow

/-- The Python local `missing_in_vauto`: indicator `right_only`. -/
def missingInVautoOf (df_vauto df_reynolds : List Row) : List JRow :=
  (outerJoinByStock df_vauto df_reynolds).filter JRow.isRightOnlyRow

/-- The Python local `vin_mismatches`: a filter of the exact matches,
computed only when both sides have a usable vin column and the exact
matches are nonempty; otherwise an empty table. -/
def vinMismatchesOf (df_vauto df_reynolds : List Row) : List JRow :=
  if hasVinCol df_vauto && hasVinCol df_reynolds &&
      !(exactMatchesOf df_vauto df_reynolds).isEmpty
  then (exactMatchesOf df_vauto df_reynolds).filter vinMismCond
  else []

/-- The Python local `status_mismatches`: a filter of the exact matches. -/
def statusMismatchesOf (df_vauto df_reynolds : List Row) : List JRow :=
  (exactMatchesOf df_vauto df_reynolds).filter statusMismCond

/-- `comparison.compare_inventories`: outer-join the two record sets on
the normalized stock number, split the merged rows by the indicator,
and filter the exact matches for VIN mismatches (only when both sides
have a non-all-null vin column) and status mismatches. -/
def compare_inventories (df_vauto df_reynolds : List Row) : CompareResult :=
  { exact_matches := exactMatchesOf df_vauto df_reynolds
    missing_in_reynolds := missingInReynoldsOf df_vauto df_reynolds
    missing_in_vauto := missingInVautoOf df_vauto df_reynolds
    vin_mismatches := vinMismatchesOf df_vauto df_reynolds
    status_mismatches := statusMismatchesOf df_vauto df_reynolds
    summary :=
      { total_vauto := df_vauto.length
        total_reynolds := df_reynolds.length
        exact_matches := (exactMatchesOf df_vauto df_reynolds).length
        missing_in_reynolds := (missingInReynoldsOf df_vauto df_reynolds).length
        missing_in_vauto := (missingInVautoOf df_vauto df_reynolds).length
        vin_mismatches := (vinMismatchesOf df_vauto df_reynolds).length
        status_mismatches := (statusMismatchesOf df_vauto df_reynolds).length } }

/-- The two possible warnings of `analyze_matching_quality` (message
strings abstracted; the VIN warning carries the reported count). -/
inductive QWarning where
  | noMatches
  | vinCount (n : Nat)
deriving DecidableEq

/-- The analysis dictionary of `analyze_matching_quality`: the stock
samples and the single `warning` slot (a dict key, so at most one). -/
structure QAnalysis where
  vauto_stock_samples : List Str
  reynolds_stock_samples : List Str
  warning : Option QWarning
deriving DecidableEq

/-- `comparison.analyze_matching_quality`: up to 10 non-null stock
samples per side; set the warning slot to `noMatches` when there are
zero exact matches, then overwrite the same slot with `vinCount` when
there are VIN mismatches. -/
def analyze_matching_quality (df_vauto df_reynolds : List Row)
    (results : CompareResult) : QAnalysis :=
  let w1 : Option QWarning :=
    if results.summary.exact_matches = 0 then some QWarning.noMatches else none
  let w2 : Option QWarning :=
    if 0 < results.summary.vin_mismatches
    then some (QWarning.vinCount results.summary.vin_mismatches) else w1
  { vauto_stock_samples := (df_vauto.filterMap (fun r => r.stock)).take 10
    reynolds_stock_samples := (df_reynolds.filterMap (fun r => r.stock)).take 10
    warning := w2 }

/-- Maximum similarity score over a list of (alias, raw column) pairs
(0 for the empty list; scores are nonnegative). -/
def maxAll (prs : List (Str × Str)) : ℚ := prs.foldl (fun b p => max b (scoreOf p)) 0

/-- Modelled from the claim for comparison with the code: per semantic
field, if the maximum similarity score over all (alias, raw column)
pairs reaches 0.3, map the field to the column of the first pair
attaining that maximum with the maximum as confidence — except that a
column whose name is the empty string is dropped by the Python
truthiness test; otherwise the field is absent with confidence 0.0. -/
def mapperSpec (aliases df_columns : List Str) : Option Str × ℚ :=
  let prs := pairsOf aliases df_columns
  let M := maxAll prs
  if Rat.divInt 3 10 ≤ M then
    match prs.find? (fun p => decide (scoreOf p = M)) with
    | some p => if p.2.isEmpty then (none, 0) else (some p.2, M)
    | none => (none, 0)
  else (none, 0)

/-- Maximum similarity score over pairs, folded from an initial bound
(`maxAll prs = maxAllFrom prs 0`). -/
def maxAllFrom (prs : List (Str × Str)) (b : ℚ) : ℚ :=
  prs.foldl (fun x p => max x (scoreOf p)) b

/-- The best score reached by the update loop of
`find_best_column_match`, started from best-so-far `b`: only scores
that reach the minimum similarity participate. -/
def runMaxQ (min_similarity : ℚ) (prs : List (Str × Str)) (b : ℚ) : ℚ :=
  prs.foldl (fun x p =>
    if x < scoreOf p ∧ min_similarity ≤ scoreOf p then scoreOf p else x) b

/-- Character codes of a Lean string literal (for concrete inputs). -/
def strLit (s : String) : Str := s.toList.map Char.toNat

/-! ### Helper lemmas: the three-way split of the merged table -/

/-- The three indicator filters of the merged table are a partition:
together they are a permutation of the merged table. -/
theorem filter3_perm (l : List JRow) :
    (l.filter JRow.isBothRow ++ l.filter JRow.isLeftOnlyRow ++
      l.filter JRow.isRightOnlyRow).Perm l := by
  induction l with
  | nil => simp
  | cons x xs ih =>
    cases x with
    | both a b =>
      simp only [List.filter_cons, JRow.isBothRow, JRow.isLeftOnlyRow, JRow.isRightOnlyRow]
      simpa using ih.cons (JRow.both a b)
    | leftOnly a =>
      simp only [List.filter_cons, JRow.isBothRow, JRow.isLeftOnlyRow, JRow.isRightOnlyRow]
      simp only [List.append_assoc, List.cons_append]
      refine List.perm_middle.trans ?_
      simpa [List.append_assoc] using ih.cons (JRow.leftOnly a)
    | rightOnly b =>
      simp only [List.filter_cons, JRow.isBothRow, JRow.isLeftOnlyRow, JRow.isRightOnlyRow]
      refine ?_
      have h := @List.perm_middle JRow (JRow.rightOnly b)
        (xs.filter JRow.isBothRow ++ xs.filter JRow.isLeftOnlyRow)
        (xs.filter JRow.isRightOnlyRow)
      simpa [List.append_assoc] using h.trans (ih.cons (JRow.rightOnly b))

/-- A row sharing the key of `a` belongs to `keyMatchesOf dfB a`. -/
theorem mem_keyMatchesOf (dfB : List Row) (a b : Row) (hb : b ∈ dfB)
    (hk : stockKey b = stockKey a) : b ∈ keyMatchesOf dfB a := by
  unfold keyMatchesOf
  exact List.mem_filter.mpr ⟨hb, by simpa using hk⟩

/-- A matched pair of rows appears as a `both` row of the outer join. -/
theorem both_mem_outerJoin (dfA dfB : List Row) (a b : Row) (ha : a ∈ dfA) (hb : b ∈ dfB)
    (hk : stockKey b = stockKey a) : JRow.both a b ∈ outerJoinByStock dfA dfB := by
  have hbm : b ∈ keyMatchesOf dfB a := mem_keyMatchesOf dfB a b hb hk
  have hne : (keyMatchesOf dfB a).isEmpty = false := by
    rcases hfe : (keyMatchesOf dfB a).isEmpty with _ | _
    · rfl
    · rw [List.isEmpty_iff] at hfe
      rw [hfe] at hbm
      exact absurd hbm (List.not_mem_nil b)
  have hj : JRow.both a b ∈ joinRowsFor dfB a := by
    unfold joinRowsFor
    rw [hne]
    simp only [Bool.false_eq_true, if_false]
    exact List.mem_map.mpr ⟨b, hbm, rfl⟩
  unfold outerJoinByStock
  exact List.mem_append_left _ (List.mem_flatMap.mpr ⟨a, ha, hj⟩)

/-- A left row with a key match on the right never appears as a
`left_only` row of the outer join. -/
theorem leftOnly_not_mem_outerJoin (dfA dfB : List Row) (a x : Row) (hx : x ∈ dfB)
    (hk : stockKey x = stockKey a) : JRow.leftOnly a ∉ outerJoinByStock dfA dfB := by
  unfold outerJoinByStock
  intro hmem
  rcases List.mem_append.mp hmem with h1 | h2
  · rcases List.mem_flatMap.mp h1 with ⟨a1, _, hin⟩
    unfold joinRowsFor at hin
    rcases he : (keyMatchesOf dfB a1).isEmpty with _ | _
    · rw [he] at hin
      simp only [Bool.false_eq_true, if_false] at hin
      rcases List.mem_map.mp hin with ⟨b1, _, hb1⟩
      exact JRow.noConfusion hb1
    · rw [he, if_pos rfl] at hin
      have haa : a = a1 := by
        have h := List.mem_singleton.mp hin
        injection h
      subst haa
      have hxm : x ∈ keyMatchesOf dfB a := mem_keyMatchesOf dfB a x hx hk
      rw [List.isEmpty_iff] at he
      rw [he] at hxm
      exact absurd hxm (List.not_mem_nil x)
  · rcases List.mem_map.mp h2 with ⟨b1, _, hb1⟩
    exact JRow.noConfusion hb1

/-- A right row with a key match on the left never appears as a
`right_only` row of the outer join. -/
theorem rightOnly_not_mem_outerJoin (dfA dfB : List Row) (b y : Row) (hy : y ∈ dfA)
    (hk : stockKey y = stockKey b) : JRow.rightOnly b ∉ outerJoinByStock dfA dfB := by
  unfold outerJoinByStock
  intro hmem
  rcases List.mem_append.mp hmem with h1 | h2
  · rcases List.mem_flatMap.mp h1 with ⟨a1, _, hin⟩
    unfold joinRowsFor at hin
    rcases he : (keyMatchesOf dfB a1).isEmpty with _ | _
    · rw [he] at hin
      simp only [Bool.false_eq_true, if_false] at hin
      rcases List.mem_map.mp hin with ⟨b1, _, hb1⟩
      exact JRow.noConfusion hb1
    · rw [he, if_pos rfl] at hin
      have h := List.mem_singleton.mp hin
      exact JRow.noConfusion h
  · rcases List.mem_map.mp h2 with ⟨b1, hb1mem, hb1⟩
    have hbb : b1 = b := by injection hb1
    subst hbb
    have hall' := (List.mem_filter.mp hb1mem).2
    rw [List.all_eq_true] at hall'
    have hy' := hall' y hy
    simp [hk] at hy'

/-! ### Claims C1, C4, C5, C6, C8, C9 -/

/-- C1: both key normalizers are total Lean functions over any nullable
value (so they never raise), they always return a string, and for a
null/missing input each returns the empty string. -/
theorem normalizers_total_and_null_to_empty :
    (∀ v : Option Str, ∃ s t : Str, normalize_stock_number v = s ∧ normalize_vin v = t) ∧
    normalize_stock_number none = [] ∧ normalize_vin none = [] :=
  ⟨fun _ => ⟨_, _, rfl, rfl⟩, rfl, rfl⟩

/-- C4: rows whose normalized stock-number key is the empty string join
like any other key value: an empty-key row on each side produces a
`both` pair in exact_matches, and neither row is reported missing. -/
theorem empty_key_rows_join_as_exact (df_vauto df_reynolds : List Row) (a b : Row)
    (ha : a ∈ df_vauto) (hb : b ∈ df_reynolds)
    (hka : stockKey a = []) (hkb : stockKey b = []) :
    JRow.both a b ∈ (compare_inventories df_vauto df_reynolds).exact_matches ∧
    JRow.leftOnly a ∉ (compare_inventories df_vauto df_reynolds).missing_in_reynolds ∧
    JRow.rightOnly b ∉ (compare_inventories df_vauto df_reynolds).missing_in_vauto := by
  have hk : stockKey b = stockKey a := by rw [hka, hkb]
  refine ⟨?_, ?_, ?_⟩
  · show JRow.both a b ∈ exactMatchesOf df_vauto df_reynolds
    exact List.mem_filter.mpr
      ⟨both_mem_outerJoin df_vauto df_reynolds a b ha hb hk, rfl⟩
  · show JRow.leftOnly a ∉ missingInReynoldsOf df_vauto df_reynolds
    intro hmem
    exact leftOnly_not_mem_outerJoin df_vauto df_reynolds a b hb hk
      (List.mem_filter.mp hmem).1
  · show JRow.rightOnly b ∉ missingInVautoOf df_vauto df_reynolds
    intro hmem
    exact rightOnly_not_mem_outerJoin df_vauto df_reynolds b a ha hk.symm
      (List.mem_filter.mp hmem).1

/-- Witness for C4 at a concrete input: both sides hold one row with a
null stock number (empty key); they pair into exact_matches. -/
theorem empty_key_rows_join_as_exact_witness :
    JRow.both ⟨none, none, none⟩ ⟨none, some (strLit "V1"), none⟩ ∈
      (compare_inventories [⟨none, none, none⟩]
        [⟨none, some (strLit "V1"), none⟩]).exact_matches ∧
    JRow.leftOnly ⟨none, none, none⟩ ∉
      (compare_inventories [⟨none, none, none⟩]
        [⟨none, some (strLit "V1"), none⟩]).missing_in_reynolds ∧
    JRow.rightOnly ⟨none, some (strLit "V1"), none⟩ ∉
      (compare_inventories [⟨none, none, none⟩]
        [⟨none, some (strLit "V1"), none⟩]).missing_in_vauto :=
  empty_key_rows_join_as_exact [⟨none, none, none⟩] [⟨none, some (strLit "V1"), none⟩]
    ⟨none, none, none⟩ ⟨none, some (strLit "V1"), none⟩
    (by decide) (by decide) (by decide) (by decide)

/-- C5: exact_matches, missing_in_reynolds and missing_in_vauto
partition the full outer join on the normalized stock-number key (their
concatenation is a permutation of it), and the VIN-mismatch and
status-mismatch tables are sublists of exact_matches. -/
theorem reconciliation_partition (df_vauto df_reynolds : List Row) :
    ((compare_inventories df_vauto df_reynolds).exact_matches ++
      (compare_inventories df_vauto df_reynolds).missing_in_reynolds ++
      (compare_inventories df_vauto df_reynolds).missing_in_vauto).Perm
        (outerJoinByStock df_vauto df_reynolds) ∧
    (compare_inventories df_vauto df_reynolds).vin_mismatches.Sublist
      (compare_inventories df_vauto df_reynolds).exact_matches ∧
    (compare_inventories df_vauto df_reynolds).status_mismatches.Sublist
      (compare_inventories df_vauto df_reynolds).exact_matches := by
  refine ⟨filter3_perm (outerJoinByStock df_vauto df_reynolds), ?_, ?_⟩
  · show (vinMismatchesOf df_vauto df_reynolds).Sublist (exactMatchesOf df_vauto df_reynolds)
    unfold vinMismatchesOf
    split
    · exact List.filter_sublist _
    · exact List.nil_sublist _
  · exact List.filter_sublist _

/-- C6: the concrete leading-zero scenario: "007" and "7" normalize to
the same join key, the equal VINs yield no VIN mismatch, and the raw
statuses "Available" and "Sold" yield one status mismatch. -/
theorem scenario_leading_zeros_status_mismatch :
    stockKey ⟨some (strLit "007"), some (strLit "1HGCM82633A004352"), some (strLit "Available")⟩ =
      stockKey ⟨some (strLit "7"), some (strLit "1HGCM82633A004352"), some (strLit "Sold")⟩ ∧
    (compare_inventories
      [⟨some (strLit "007"), some (strLit "1HGCM82633A004352"), some (strLit "Available")⟩]
      [⟨some (strLit "7"), some (strLit "1HGCM82633A004352"), some (strLit "Sold")⟩]
      ).summary.exact_matches = 1 ∧
    (compare_inventories
      [⟨some (strLit "007"), some (strLit "1HGCM82633A004352"), some (strLit "Available")⟩]
      [⟨some (strLit "7"), some (strLit "1HGCM82633A004352"), some (strLit "Sold")⟩]
      ).summary.vin_mismatches = 0 ∧
    (compare_inventories
      [⟨some (strLit "007"), some (strLit "1HGCM82633A004352"), some (strLit "Available")⟩]
      [⟨some (strLit "7"), some (strLit "1HGCM82633A004352"), some (strLit "Sold")⟩]
      ).summary.status_mismatches = 1 := by
  refine ⟨by decide, by decide, by decide, by decide⟩

/-- C8: the quality analysis has a single warning slot: the VIN-count
warning, when its condition holds, overwrites the no-exact-matches
format warning; otherwise the format warning is set exactly when there
are zero exact matches. -/
theorem analyze_warning_latest_only (df_vauto df_reynolds : List Row)
    (results : CompareResult) :
    (analyze_matching_quality df_vauto df_reynolds results).warning =
      if 0 < results.summary.vin_mismatches
      then some (QWarning.vinCount results.summary.vin_mismatches)
      else if results.summary.exact_matches = 0 then some QWarning.noMatches else none := by
  unfold analyze_matching_quality
  by_cases h : 0 < results.summary.vin_mismatches
  · simp [h]
  · simp [h]

/-- C9: in any result of compare_inventories, a positive VIN-mismatch
count forces a positive exact-match count (the VIN mismatches are a
filter of the exact matches), so the two warning conditions of
analyze_matching_quality are mutually exclusive and the overwrite
never discards a warning that was set. -/
theorem vin_mismatches_imply_exact_matches (df_vauto df_reynolds : List Row)
    (h : 0 < (compare_inventories df_vauto df_reynolds).summary.vin_mismatches) :
    0 < (compare_inventories df_vauto df_reynolds).summary.exact_matches ∧
    ¬((compare_inventories df_vauto df_reynolds).summary.exact_matches = 0) ∧
    (analyze_matching_quality df_vauto df_reynolds
        (compare_inventories df_vauto df_reynolds)).warning =
      some (QWarning.vinCount
        (compare_inventories df_vauto df_reynolds).summary.vin_mismatches) := by
  have hlen : 0 < (vinMismatchesOf df_vauto df_reynolds).length := h
  have hpos : 0 < (exactMatchesOf df_vauto df_reynolds).length := by
    unfold vinMismatchesOf at hlen
    rcases hc : (hasVinCol df_vauto && hasVinCol df_reynolds &&
        !(exactMatchesOf df_vauto df_reynolds).isEmpty) with _ | _
    · rw [hc] at hlen
      simp at hlen
    · rw [hc, if_pos rfl] at hlen
      calc 0 < ((exactMatchesOf df_vauto df_reynolds).filter vinMismCond).length := hlen
        _ ≤ (exactMatchesOf df_vauto df_reynolds).length := List.length_filter_le _ _
  refine ⟨hpos, ?_, ?_⟩
  · show ¬((exactMatchesOf df_vauto df_reynolds).length = 0)
    omega
  · unfold analyze_matching_quality
    simp [h]

/-- Witness for C9 at a concrete input with one VIN mismatch. -/
theorem vin_mismatches_imply_exact_matches_witness :
    0 < (compare_inventories [⟨some (strLit "1"), some (strLit "AAA"), none⟩]
          [⟨some (strLit "1"), some (strLit "BBB"), none⟩]).summary.exact_matches ∧
    ¬((compare_inventories [⟨some (strLit "1"), some (strLit "AAA"), none⟩]
          [⟨some (strLit "1"), some (strLit "BBB"), none⟩]).summary.exact_matches = 0) ∧
    (analyze_matching_quality [⟨some (strLit "1"), some (strLit "AAA"), none⟩]
        [⟨some (strLit "1"), some (strLit "BBB"), none⟩]
        (compare_inventories [⟨some (strLit "1"), some (strLit "AAA"), none⟩]
          [⟨some (strLit "1"), some (strLit "BBB"), none⟩])).warning =
      some (QWarning.vinCount
        (compare_inventories [⟨some (strLit "1"), some (strLit "AAA"), none⟩]
          [⟨some (strLit "1"), some (strLit "BBB"), none⟩]).summary.vin_mismatches) :=
  vin_mismatches_imply_exact_matches
    [⟨some (strLit "1"), some (strLit "AAA"), none⟩]
    [⟨some (strLit "1"), some (strLit "BBB"), none⟩] (by decide)

/-! ### Claims C2 and C10: the similarity score -/

/-- The 0.8 substring score, as a fraction literal. -/
theorem ratDivInt_four_five : Rat.divInt 4 5 = 4/5 := by
  norm_num [Rat.divInt_eq_div]

/-- The 0.3 default threshold, as a fraction literal. -/
theorem ratDivInt_three_ten : Rat.divInt 3 10 = 3/10 := by
  norm_num [Rat.divInt_eq_div]

/-- The empty string is a substring of every string (Python `"" in s`). -/
theorem isSubstrOf_nil_left (l : Str) : isSubstrOf [] l = true := by
  cases l with
  | nil => rfl
  | cons y ys => simp [isSubstrOf, strMatchesAt]

/-- C2: the similarity score of an (alias, raw column) pair is 1.0 when
the normalized forms are equal; otherwise 0.8 when one normalized form
is a substring of the other; otherwise the Jaccard similarity of the
whitespace-token sets, with score 0.0 when either token set is empty. -/
theorem similarity_score_cases (t c : Str) :
    (normalize_column_name (some t) = normalize_column_name (some c) →
      calculate_similarity_score t c = 1) ∧
    (normalize_column_name (some t) ≠ normalize_column_name (some c) →
      (isSubstrOf (normalize_column_name (some t)) (normalize_column_name (some c)) ||
        isSubstrOf (normalize_column_name (some c)) (normalize_column_name (some t))) = true →
      calculate_similarity_score t c = 4/5) ∧
    (normalize_column_name (some t) ≠ normalize_column_name (some c) →
      (isSubstrOf (normalize_column_name (some t)) (normalize_column_name (some c)) ||
        isSubstrOf (normalize_column_name (some c)) (normalize_column_name (some t))) = false →
      ((splitWs (normalize_column_name (some t))).toFinset = ∅ ∨
        (splitWs (normalize_column_name (some c))).toFinset = ∅) →
      calculate_similarity_score t c = 0) ∧
    (normalize_column_name (some t) ≠ normalize_column_name (some c) →
      (isSubstrOf (normalize_column_name (some t)) (normalize_column_name (some c)) ||
        isSubstrOf (normalize_column_name (some c)) (normalize_column_name (some t))) = false →
      (splitWs (normalize_column_name (some t))).toFinset ≠ ∅ →
      (splitWs (normalize_column_name (some c))).toFinset ≠ ∅ →
      calculate_similarity_score t c =
        (((splitWs (normalize_column_name (some t))).toFinset ∩
          (splitWs (normalize_column_name (some c))).toFinset).card : ℚ) /
        (((splitWs (normalize_column_name (some t))).toFinset ∪
          (splitWs (normalize_column_name (some c))).toFinset).card : ℚ)) := by
  refine ⟨?_, ?_, ?_, ?_⟩
  · intro he
    simp only [calculate_similarity_score]
    rw [if_pos he]
  · intro hne hsub
    simp only [calculate_similarity_score]
    rw [if_neg hne, if_pos hsub, ratDivInt_four_five]
  · intro hne hsub hempty
    simp only [calculate_similarity_score]
    rw [if_neg hne, if_neg (by simp [hsub]), if_pos hempty]
  · intro hne hsub htw hcw
    simp only [calculate_similarity_score]
    rw [if_neg hne, if_neg (by simp [hsub]), if_neg (not_or.mpr ⟨htw, hcw⟩)]
    have hu : (splitWs (normalize_column_name (some t))).toFinset ∪
        (splitWs (normalize_column_name (some c))).toFinset ≠ ∅ := by
      intro h
      exact htw (Finset.union_eq_empty.mp h).1
    rw [if_pos hu, Rat.divInt_eq_div]
    push_cast
    ring

/-- Witness for C2 on concrete pairs: an equal-normalization pair, a
substring pair, and a Jaccard pair, with hypotheses checked by decide. -/
theorem similarity_score_cases_witness :
    calculate_similarity_score (strLit "Stock #") (strLit "stock") = 1 ∧
    calculate_similarity_score (strLit "stock") (strLit "stock number") = 4/5 ∧
    calculate_similarity_score (strLit "stock no") (strLit "number stock") =
      (((splitWs (normalize_column_name (some (strLit "stock no")))).toFinset ∩
        (splitWs (normalize_column_name (some (strLit "number stock")))).toFinset).card : ℚ) /
      (((splitWs (normalize_column_name (some (strLit "stock no")))).toFinset ∪
        (splitWs (normalize_column_name (some (strLit "number stock")))).toFinset).card : ℚ) :=
  ⟨(similarity_score_cases (strLit "Stock #") (strLit "stock")).1 (by decide),
   (similarity_score_cases (strLit "stock") (strLit "stock number")).2.1
     (by decide) (by decide),
   (similarity_score_cases (strLit "stock no") (strLit "number stock")).2.2.2
     (by decide) (by decide) (by decide) (by decide)⟩

/-- C10 counterexample: the alias "!" is a non-empty string, the column
"#" normalizes to the empty string, yet the score is 1.0 (both
normalize to the empty string, so the equality branch fires), not the
0.8 the claim asserts for every non-empty alias. -/
theorem nonempty_alias_empty_column_scores_one :
    strLit "!" ≠ [] ∧
    normalize_column_name (some (strLit "!")) = [] ∧
    normalize_column_name (some (strLit "#")) = [] ∧
    calculate_similarity_score (strLit "!") (strLit "#") = 1 ∧
    (1 : ℚ) ≠ 4/5 :=
  ⟨by decide, by decide, by decide, by decide, by norm_num⟩

/-- C10 amended: for every alias whose normalized form is non-empty, a
raw column whose name normalizes to the empty string scores 0.8 (the
empty string is a substring of every string and the substring branch
precedes the empty-token-set branch); 0.8 reaches the 0.3 threshold,
so such a column can be selected as a field's mapping. -/
theorem empty_norm_column_scores_point_eight (t c : Str)
    (ht : normalize_column_name (some t) ≠ [])
    (hc : normalize_column_name (some c) = []) :
    calculate_similarity_score t c = 4/5 ∧
    (3/10 : ℚ) ≤ 4/5 ∧
    find_best_column_match [t] [c] (Rat.divInt 3 10) = (some c, 4/5) := by
  have hne : normalize_column_name (some t) ≠ normalize_column_name (some c) := by
    rw [hc]; exact ht
  have hsub : (isSubstrOf (normalize_column_name (some t)) (normalize_column_name (some c)) ||
      isSubstrOf (normalize_column_name (some c)) (normalize_column_name (some t))) = true := by
    rw [hc, isSubstrOf_nil_left]
    simp
  have hcss : calculate_similarity_score t c = (4/5 : ℚ) := by
    simp only [calculate_similarity_score]
    rw [if_neg hne, if_pos hsub, ratDivInt_four_five]
  refine ⟨hcss, by norm_num, ?_⟩
  show List.foldl (fbStep (Rat.divInt 3 10)) (none, 0) (pairsOf [t] [c]) = (some c, 4/5)
  have hp : pairsOf [t] [c] = [(t, c)] := rfl
  rw [hp]
  simp only [List.foldl_cons, List.foldl_nil]
  have hsc : scoreOf (t, c) = (4/5 : ℚ) := hcss
  unfold fbStep
  rw [if_pos ?hcond]
  case hcond =>
    rw [hsc, ratDivInt_three_ten]
    constructor
    · norm_num
    · norm_num
  rw [hsc]

/-- Witness for C10's amended claim at a concrete input. -/
theorem empty_norm_column_scores_point_eight_witness :
    calculate_similarity_score (strLit "stock") (strLit "##") = 4/5 ∧
    (3/10 : ℚ) ≤ 4/5 ∧
    find_best_column_match [strLit "stock"] [strLit "##"] (Rat.divInt 3 10) =
      (some (strLit "##"), 4/5) :=
  empty_norm_column_scores_point_eight (strLit "stock") (strLit "##")
    (by decide) (by decide)

/-! ### Claim C7: idempotence of the normalizers -/

/-- A Bool that is not true is false. -/
theorem bool_eq_false_of_not {b : Bool} (h : ¬ b = true) : b = false := by
  rcases b with _ | _
  · rfl
  · exact absurd rfl h

/-- Arithmetic reading of `isLowerCode`. -/
theorem isLowerCode_iff (n : Nat) : isLowerCode n = true ↔ 97 ≤ n ∧ n ≤ 122 := by
  simp [isLowerCode]

/-- Arithmetic reading of `isSpaceCode`. -/
theorem isSpaceCode_iff (n : Nat) :
    isSpaceCode n = true ↔ n = 32 ∨ n = 9 ∨ n = 10 ∨ n = 13 ∨ n = 11 ∨ n = 12 := by
  simp only [isSpaceCode, Bool.or_eq_true, decide_eq_true_eq]
  tauto

/-- Arithmetic reading of `isDigitCode`. -/
theorem isDigitCode_iff (n : Nat) : isDigitCode n = true ↔ 48 ≤ n ∧ n ≤ 57 := by
  simp [isDigitCode]

/-- Uppercasing a character code is idempotent. -/
theorem toUpperCode_idem (n : Nat) : toUpperCode (toUpperCode n) = toUpperCode n := by
  by_cases h : isLowerCode n = true
  · have h' := (isLowerCode_iff n).mp h
    have hf : isLowerCode (n - 32) = false := by
      rcases hb : isLowerCode (n - 32) with _ | _
      · rfl
      · exact absurd ((isLowerCode_iff _).mp hb) (by omega)
    simp [toUpperCode, h, hf]
  · simp [toUpperCode, bool_eq_false_of_not h]

/-- Uppercasing preserves whitespace-ness of a character code. -/
theorem isSpaceCode_toUpperCode (n : Nat) : isSpaceCode (toUpperCode n) = isSpaceCode n := by
  by_cases h : isLowerCode n = true
  · have h' := (isLowerCode_iff n).mp h
    have h1 : isSpaceCode (n - 32) = false := by
      rcases hb : isSpaceCode (n - 32) with _ | _
      · rfl
      · exact absurd ((isSpaceCode_iff _).mp hb) (by omega)
    have h2 : isSpaceCode n = false := by
      rcases hb : isSpaceCode n with _ | _
      · rfl
      · exact absurd ((isSpaceCode_iff _).mp hb) (by omega)
    simp [toUpperCode, h, h1, h2]
  · simp [toUpperCode, bool_eq_false_of_not h]

/-- Digits are unchanged by uppercasing. -/
theorem toUpperCode_of_digit {n : Nat} (h : isDigitCode n = true) : toUpperCode n = n := by
  have h' := (isDigitCode_iff n).mp h
  have hf : isLowerCode n = false := by
    rcases hb : isLowerCode n with _ | _
    · rfl
    · exact absurd ((isLowerCode_iff _).mp hb) (by omega)
  simp [toUpperCode, hf]

/-- Alphanumeric codes are not whitespace. -/
theorem isSpaceCode_eq_false_of_alnum {n : Nat} (h : isAlnumCode n = true) :
    isSpaceCode n = false := by
  have h' : (48 ≤ n ∧ n ≤ 57) ∨ (65 ≤ n ∧ n ≤ 90) ∨ (97 ≤ n ∧ n ≤ 122) := by
    have h2 := h
    simp only [isAlnumCode, isDigitCode, isUpperCode, isLowerCode, Bool.or_eq_true,
      Bool.and_eq_true, decide_eq_true_eq] at h2
    tauto
  rcases hb : isSpaceCode n with _ | _
  · rfl
  · exact absurd ((isSpaceCode_iff _).mp hb) (by omega)

/-- Digit codes are not whitespace. -/
theorem isSpaceCode_eq_false_of_digit {n : Nat} (h : isDigitCode n = true) :
    isSpaceCode n = false :=
  isSpaceCode_eq_false_of_alnum (by simp [isAlnumCode, h])

/-- A map whose function fixes every member is the identity. -/
theorem map_eq_self_of_fix {α : Type} (f : α → α) (l : List α) (h : ∀ c ∈ l, f c = c) :
    l.map f = l := by
  induction l with
  | nil => rfl
  | cons c t ih =>
    rw [List.map_cons, h c (List.mem_cons_self c t),
      ih (fun x hx => h x (List.mem_cons_of_mem c hx))]

/-- Left strip of a string without whitespace is the identity. -/
theorem lstripStr_of_no_space (l : Str) (h : ∀ c ∈ l, isSpaceCode c = false) :
    lstripStr l = l := by
  cases l with
  | nil => rfl
  | cons c t =>
    unfold lstripStr
    rw [List.dropWhile_cons, h c (List.mem_cons_self c t)]
    simp

/-- Right strip of a string without whitespace is the identity. -/
theorem rstripStr_of_no_space (l : Str) (h : ∀ c ∈ l, isSpaceCode c = false) :
    rstripStr l = l := by
  have h' := lstripStr_of_no_space l.reverse (fun c hc => h c (List.mem_reverse.mp hc))
  unfold lstripStr at h'
  unfold rstripStr
  rw [h', List.reverse_reverse]

/-- Full strip of a string without whitespace is the identity. -/
theorem stripStr_of_no_space (l : Str) (h : ∀ c ∈ l, isSpaceCode c = false) :
    stripStr l = l := by
  unfold stripStr
  rw [lstripStr_of_no_space l h, rstripStr_of_no_space l h]

/-- Left strip is idempotent. -/
theorem lstripStr_idem (l : Str) : lstripStr (lstripStr l) = lstripStr l := by
  unfold lstripStr
  induction l with
  | nil => rfl
  | cons c t ih =>
    rcases hc : isSpaceCode c with _ | _
    · simp [List.dropWhile_cons, hc]
    · simp only [List.dropWhile_cons, hc, if_true]
      exact ih

/-- Right strip is idempotent. -/
theorem rstripStr_idem (l : Str) : rstripStr (rstripStr l) = rstripStr l := by
  unfold rstripStr
  rw [List.reverse_reverse]
  have h := lstripStr_idem l.reverse
  unfold lstripStr at h
  rw [h]

/-- Dropping a while-run from the front leaves a suffix. -/
theorem dropWhile_isSuffix {α : Type} (p : α → Bool) (l : List α) : l.dropWhile p <:+ l := by
  induction l with
  | nil => exact List.suffix_refl []
  | cons c t ih =>
    rw [List.dropWhile_cons]
    rcases hc : p c with _ | _
    · simp
    · simp only [if_true]
      exact ih.trans (List.suffix_cons c t)

/-- The right strip of a string is one of its front segments. -/
theorem rstripStr_isStart (l : Str) : rstripStr l <+: l := by
  unfold rstripStr
  have h := dropWhile_isSuffix isSpaceCode l.reverse
  have h' := List.reverse_prefix.mpr h
  rwa [List.reverse_reverse] at h'

/-- A front segment of a left-stripped string is itself left-stripped. -/
theorem lstripStr_eq_self_of_isStart {A B : Str} (hA : lstripStr A = A) (hp : B <+: A) :
    lstripStr B = B := by
  cases B with
  | nil => rfl
  | cons c t =>
    rcases hp with ⟨u, hu⟩
    have hc : isSpaceCode c = false := by
      rcases hb : isSpaceCode c with _ | _
      · rfl
      · exfalso
        rw [← hu] at hA
        unfold lstripStr at hA
        rw [List.cons_append, List.dropWhile_cons, hb] at hA
        simp only [if_true] at hA
        have hlen := congrArg List.length hA
        have hle : (List.dropWhile isSpaceCode (t ++ u)).length ≤ (t ++ u).length :=
          (List.dropWhile_sublist isSpaceCode).length_le
        simp only [List.length_cons] at hlen
        omega
    unfold lstripStr
    rw [List.dropWhile_cons, hc]
    simp

/-- Full strip is idempotent. -/
theorem stripStr_idem (l : Str) : stripStr (stripStr l) = stripStr l := by
  unfold stripStr
  have h3 : lstripStr (rstripStr (lstripStr l)) = rstripStr (lstripStr l) :=
    lstripStr_eq_self_of_isStart (lstripStr_idem l) (rstripStr_isStart _)
  rw [h3, rstripStr_idem]

/-- Left strip commutes with uppercasing. -/
theorem lstripStr_upperStr (l : Str) : lstripStr (upperStr l) = upperStr (lstripStr l) := by
  unfold lstripStr upperStr
  rw [List.dropWhile_map]
  have h : (isSpaceCode ∘ toUpperCode) = isSpaceCode := by
    funext c
    simp [Function.comp, isSpaceCode_toUpperCode]
  rw [h]

/-- Right strip commutes with uppercasing. -/
theorem rstripStr_upperStr (l : Str) : rstripStr (upperStr l) = upperStr (rstripStr l) := by
  unfold rstripStr upperStr
  rw [← List.map_reverse, List.dropWhile_map]
  have h : (isSpaceCode ∘ toUpperCode) = isSpaceCode := by
    funext c
    simp [Function.comp, isSpaceCode_toUpperCode]
  rw [h, List.map_reverse]

/-- Full strip commutes with uppercasing. -/
theorem stripStr_upperStr (l : Str) : stripStr (upperStr l) = upperStr (stripStr l) := by
  unfold stripStr
  rw [lstripStr_upperStr, rstripStr_upperStr]

/-- Uppercasing a string is idempotent. -/
theorem upperStr_idem (l : Str) : upperStr (upperStr l) = upperStr l := by
  unfold upperStr
  rw [List.map_map]
  have h : (toUpperCode ∘ toUpperCode) = toUpperCode := by
    funext c
    simp [Function.comp, toUpperCode_idem]
  rw [h]

/-- Folding the decimal parser over the digits of `n` (with enough
fuel) recovers `n`, shifted past the accumulator. -/
theorem natDigitsAux_foldl (fuel : Nat) : ∀ n a, n < fuel →
    (natDigitsAux fuel n).foldl (fun x c => 10 * x + (c - 48)) a =
      a * 10 ^ (natDigitsAux fuel n).length + n := by
  induction fuel with
  | zero => intro n a h; omega
  | succ fuel ih =>
    intro n a h
    by_cases h10 : n < 10
    · simp only [natDigitsAux, if_pos h10, List.foldl_cons, List.foldl_nil,
        List.length_cons, List.length_nil, pow_one, zero_add]
      omega
    · simp only [natDigitsAux, if_neg h10, List.foldl_append, List.foldl_cons,
        List.foldl_nil, List.length_append, List.length_cons, List.length_nil]
    
      have hrec : n / 10 < fuel := by
        have hlt := Nat.div_lt_self (by omega : 0 < n) (by omega : 1 < 10)
        omega
      rw [ih (n / 10) a hrec]
      have hdm := Nat.div_add_mod n 10
      have hpow : a * 10 ^ ((natDigitsAux fuel (n / 10)).length + (0 + 1)) =
          (a * 10 ^ (natDigitsAux fuel (n / 10)).length) * 10 := by
        rw [zero_add, pow_succ]
        ring
      rw [hpow]
      generalize (a * 10 ^ (natDigitsAux fuel (n / 10)).length) = X
      omega

/-- Parsing the decimal rendering of `n` yields `n` (Python
`int(str(n)) == n`). -/
theorem parseDigits_natDigits (n : Nat) : parseDigits (natDigits n) = n := by
  unfold parseDigits natDigits
  rw [natDigitsAux_foldl (n + 1) n 0 (by omega)]
  simp

/-- Every character of a decimal rendering is a digit. -/
theorem natDigitsAux_digits (fuel : Nat) : ∀ n, n < fuel →
    ∀ c ∈ natDigitsAux fuel n, isDigitCode c = true := by
  induction fuel with
  | zero => intro n h; omega
  | succ fuel ih =>
    intro n h c hc
    by_cases h10 : n < 10
    · simp only [natDigitsAux, if_pos h10] at hc
      have hceq := List.mem_singleton.mp hc
      subst hceq
      exact (isDigitCode_iff _).mpr ⟨by omega, by omega⟩
    · simp only [natDigitsAux, if_neg h10] at hc
      rcases List.mem_append.mp hc with h1 | h2
      · have hrec : n / 10 < fuel := by
          have hlt := Nat.div_lt_self (by omega : 0 < n) (by omega : 1 < 10)
          omega
        exact ih (n / 10) hrec c h1
      · have hceq := List.mem_singleton.mp h2
        subst hceq
        have hm : n % 10 < 10 := Nat.mod_lt n (by omega)
        exact (isDigitCode_iff _).mpr ⟨by omega, by omega⟩

/-- Every character of `natDigits n` is a digit. -/
theorem natDigits_digits (n : Nat) : ∀ c ∈ natDigits n, isDigitCode c = true :=
  natDigitsAux_digits (n + 1) n (by omega)

/-- The decimal rendering is never the empty string. -/
theorem natDigits_ne_nil (n : Nat) : natDigits n ≠ [] := by
  unfold natDigits
  by_cases h10 : n < 10
  · simp [natDigitsAux, h10]
  · simp [natDigitsAux, h10]

/-- Python `str(n).isdigit()` holds for the decimal rendering. -/
theorem isDigitStr_natDigits (n : Nat) : isDigitStr (natDigits n) = true := by
  unfold isDigitStr
  rw [Bool.and_eq_true]
  constructor
  · simp [List.isEmpty_iff, natDigits_ne_nil n]
  · rw [List.all_eq_true]
    exact fun c hc => natDigits_digits n c hc

/-- Stripping fixes a decimal rendering (digits are not whitespace). -/
theorem stripStr_natDigits (n : Nat) : stripStr (natDigits n) = natDigits n :=
  stripStr_of_no_space _
    (fun c hc => isSpaceCode_eq_false_of_digit (natDigits_digits n c hc))

/-- Uppercasing fixes a decimal rendering. -/
theorem upperStr_natDigits (n : Nat) : upperStr (natDigits n) = natDigits n :=
  map_eq_self_of_fix _ _ (fun c hc => toUpperCode_of_digit (natDigits_digits n c hc))

/-- One-step fixpoint of the stock-number normalizer on strings. -/
theorem normalize_stock_number_fix (s : Str) :
    normalize_stock_number (some (normalize_stock_number (some s))) =
      normalize_stock_number (some s) := by
  simp only [normalize_stock_number]
  by_cases hd : isDigitStr (upperStr (stripStr s)) = true
  · rw [if_pos hd]
    rw [stripStr_natDigits, upperStr_natDigits]
    rw [if_pos (isDigitStr_natDigits _)]
    rw [parseDigits_natDigits]
  · rw [if_neg hd]
    have ht : upperStr (stripStr (upperStr (stripStr s))) = upperStr (stripStr s) := by
      rw [stripStr_upperStr, stripStr_idem, upperStr_idem]
    rw [ht, if_neg hd]

/-- One-step fixpoint of the VIN normalizer on strings. -/
theorem normalize_vin_fix (s : Str) :
    normalize_vin (some (normalize_vin (some s))) = normalize_vin (some s) := by
  simp only [normalize_vin]
  have hmem : ∀ c ∈ (upperStr (stripStr s)).filter isAlnumCode, isAlnumCode c = true :=
    fun c hc => (List.mem_filter.mp hc).2
  have hupfix : ∀ c ∈ (upperStr (stripStr s)).filter isAlnumCode, toUpperCode c = c := by
    intro c hc
    have hcm := (List.mem_filter.mp hc).1
    unfold upperStr at hcm
    rcases List.mem_map.mp hcm with ⟨d, _, hd⟩
    rw [← hd, toUpperCode_idem]
  have h1 : stripStr ((upperStr (stripStr s)).filter isAlnumCode) =
      (upperStr (stripStr s)).filter isAlnumCode :=
    stripStr_of_no_space _ (fun c hc => isSpaceCode_eq_false_of_alnum (hmem c hc))
  have h2 : upperStr ((upperStr (stripStr s)).filter isAlnumCode) =
      (upperStr (stripStr s)).filter isAlnumCode :=
    map_eq_self_of_fix _ _ hupfix
  rw [h1, h2]
  exact List.filter_eq_self.mpr hmem

/-- C7: both normalizers are idempotent: renormalizing the output
string of either normalizer returns it unchanged, for every nullable
input value. -/
theorem normalizers_idempotent (v : Option Str) :
    normalize_stock_number (some (normalize_stock_number v)) = normalize_stock_number v ∧
    normalize_vin (some (normalize_vin v)) = normalize_vin v := by
  cases v with
  | none => exact ⟨by decide, by decide⟩
  | some s => exact ⟨normalize_stock_number_fix s, normalize_vin_fix s⟩

/-! ### Claim C3: the column-mapping loop against its max/argmax reading -/

/-- `maxAll` is `maxAllFrom` started at 0. -/
theorem maxAll_eq_maxAllFrom (prs : List (Str × Str)) : maxAll prs = maxAllFrom prs 0 := rfl

/-- Unfolding `maxAllFrom` on a cons. -/
theorem maxAllFrom_cons (p : Str × Str) (t : List (Str × Str)) (b : ℚ) :
    maxAllFrom (p :: t) b = maxAllFrom t (max b (scoreOf p)) := rfl

/-- Unfolding `runMaxQ` on a cons. -/
theorem runMaxQ_cons (m : ℚ) (p : Str × Str) (t : List (Str × Str)) (b : ℚ) :
    runMaxQ m (p :: t) b =
      runMaxQ m t (if b < scoreOf p ∧ m ≤ scoreOf p then scoreOf p else b) := rfl

/-- The fold maximum dominates its initial bound. -/
theorem le_maxAllFrom (prs : List (Str × Str)) : ∀ b : ℚ, b ≤ maxAllFrom prs b := by
  induction prs with
  | nil => intro b; exact le_refl b
  | cons p t ih =>
    intro b
    rw [maxAllFrom_cons]
    exact (le_max_left b (scoreOf p)).trans (ih (max b (scoreOf p)))

/-- The fold maximum is monotone in its initial bound. -/
theorem maxAllFrom_mono (prs : List (Str × Str)) :
    ∀ b b' : ℚ, b ≤ b' → maxAllFrom prs b ≤ maxAllFrom prs b' := by
  induction prs with
  | nil => intro b b' h; exact h
  | cons p t ih =>
    intro b b' h
    rw [maxAllFrom_cons, maxAllFrom_cons]
    exact ih _ _ (max_le_max h (le_refl (scoreOf p)))

/-- The fold maximum is its initial bound or is attained by a pair. -/
theorem maxAllFrom_attained (prs : List (Str × Str)) :
    ∀ b : ℚ, maxAllFrom prs b = b ∨ ∃ p ∈ prs, scoreOf p = maxAllFrom prs b := by
  induction prs with
  | nil => intro b; left; rfl
  | cons q t ih =>
    intro b
    rw [maxAllFrom_cons]
    rcases ih (max b (scoreOf q)) with h | ⟨p, hp, hsc⟩
    · rw [h]
      rcases le_or_lt (scoreOf q) b with hle | hlt
      · left; exact max_eq_left hle
      · right; exact ⟨q, List.mem_cons_self q t, (max_eq_right hlt.le).symm⟩
    · right; exact ⟨p, List.mem_cons_of_mem q hp, hsc⟩

/-- Every pair's score is bounded by the fold maximum. -/
theorem scoreOf_le_maxAllFrom (prs : List (Str × Str)) :
    ∀ (b : ℚ) (p : Str × Str), p ∈ prs → scoreOf p ≤ maxAllFrom prs b := by
  induction prs with
  | nil => intro b p hp; exact absurd hp (List.not_mem_nil p)
  | cons q t ih =>
    intro b p hp
    rw [maxAllFrom_cons]
    rcases List.mem_cons.mp hp with h | h
    · subst h
      exact (le_max_right b (scoreOf p)).trans (le_maxAllFrom t _)
    · exact ih _ p h

/-- The loop's best score dominates its initial bound. -/
theorem le_runMaxQ (m : ℚ) (prs : List (Str × Str)) : ∀ b : ℚ, b ≤ runMaxQ m prs b := by
  induction prs with
  | nil => intro b; exact le_refl b
  | cons q t ih =>
    intro b
    rw [runMaxQ_cons]
    by_cases hc : b < scoreOf q ∧ m ≤ scoreOf q
    · rw [if_pos hc]; exact hc.1.le.trans (ih (scoreOf q))
    · rw [if_neg hc]; exact ih b

/-- The loop's best score never exceeds the plain maximum. -/
theorem runMaxQ_le_maxAllFrom (m : ℚ) (prs : List (Str × Str)) :
    ∀ b : ℚ, runMaxQ m prs b ≤ maxAllFrom prs b := by
  induction prs with
  | nil => intro b; exact le_refl b
  | cons q t ih =>
    intro b
    rw [runMaxQ_cons, maxAllFrom_cons]
    refine (ih _).trans (maxAllFrom_mono t _ _ ?_)
    by_cases hc : b < scoreOf q ∧ m ≤ scoreOf q
    · rw [if_pos hc]; exact le_max_right b (scoreOf q)
    · rw [if_neg hc]; exact le_max_left b (scoreOf q)

/-- The loop's best score is its initial bound or is attained by an
eligible pair. -/
theorem runMaxQ_attained (m : ℚ) (prs : List (Str × Str)) :
    ∀ b : ℚ, runMaxQ m prs b = b ∨
      ∃ p ∈ prs, m ≤ scoreOf p ∧ scoreOf p = runMaxQ m prs b := by
  induction prs with
  | nil => intro b; left; rfl
  | cons q t ih =>
    intro b
    rw [runMaxQ_cons]
    by_cases hc : b < scoreOf q ∧ m ≤ scoreOf q
    · rw [if_pos hc]
      rcases ih (scoreOf q) with h | ⟨p, hp, hm, hsc⟩
      · right; exact ⟨q, List.mem_cons_self q t, hc.2, h.symm⟩
      · right; exact ⟨p, List.mem_cons_of_mem q hp, hm, hsc⟩
    · rw [if_neg hc]
      rcases ih b with h | ⟨p, hp, hm, hsc⟩
      · left; exact h
      · right; exact ⟨p, List.mem_cons_of_mem q hp, hm, hsc⟩

/-- Eligible scores are bounded by the loop's best score. -/
theorem scoreOf_le_runMaxQ (m : ℚ) (prs : List (Str × Str)) :
    ∀ (b : ℚ) (p : Str × Str), p ∈ prs → m ≤ scoreOf p → scoreOf p ≤ runMaxQ m prs b := by
  induction prs with
  | nil => intro b p hp; exact absurd hp (List.not_mem_nil p)
  | cons q t ih =>
    intro b p hp hm
    rw [runMaxQ_cons]
    rcases List.mem_cons.mp hp with h | h
    · subst h
      by_cases hc : b < scoreOf p ∧ m ≤ scoreOf p
      · rw [if_pos hc]; exact le_runMaxQ m t (scoreOf p)
      · rw [if_neg hc]
        have hsb : scoreOf p ≤ b := by
          by_contra hcon
          exact hc ⟨lt_of_not_ge hcon, hm⟩
        exact hsb.trans (le_runMaxQ m t b)
    · exact ih _ p h hm

/-- With no eligible pair the loop keeps its initial bound. -/
theorem runMaxQ_of_no_eligible (m : ℚ) (prs : List (Str × Str)) :
    (∀ p ∈ prs, ¬ m ≤ scoreOf p) → ∀ b : ℚ, runMaxQ m prs b = b := by
  induction prs with
  | nil => intro _ b; rfl
  | cons q t ih =>
    intro h b
    rw [runMaxQ_cons, if_neg (fun hc => h q (List.mem_cons_self q t) hc.2)]
    exact ih (fun p hp => h p (List.mem_cons_of_mem q hp)) b

/-- `find?` only depends on the predicate's values on the list. -/
theorem find?_congruent {α : Type} (l : List α) (p q : α → Bool)
    (h : ∀ x ∈ l, p x = q x) : l.find? p = l.find? q := by
  induction l with
  | nil => rfl
  | cons c t ih =>
    have hqc : q c = p c := (h c (List.mem_cons_self c t)).symm
    rw [List.find?_cons, List.find?_cons, hqc]
    rcases hc : p c with _ | _
    · simp only []
      exact ih (fun x hx => h x (List.mem_cons_of_mem c hx))
    · rfl

/-- `find?` on a cons whose head satisfies the predicate. -/
theorem find?_cons_true {α : Type} (p : α → Bool) (a : α) (l : List α) (h : p a = true) :
    (a :: l).find? p = some a := by
  rw [List.find?_cons, h]

/-- `find?` on a cons whose head fails the predicate. -/
theorem find?_cons_false {α : Type} (p : α → Bool) (a : α) (l : List α) (h : p a = false) :
    (a :: l).find? p = l.find? p := by
  rw [List.find?_cons, h]

/-- Closed form of the best-match fold from any state: the final best
score is `runMaxQ`, and the chosen column is that of the first pair
that is eligible, beats the initial best, and attains the final best
score — or the initial state when no such pair exists. -/
theorem foldl_fbStep_closed (m : ℚ) (prs : List (Str × Str)) :
    ∀ (bm : Option Str) (bs : ℚ),
      List.foldl (fbStep m) (bm, bs) prs =
        match prs.find? (fun p => decide (bs < scoreOf p) && decide (m ≤ scoreOf p) &&
            decide (scoreOf p = runMaxQ m prs bs)) with
        | some p => (some p.2, runMaxQ m prs bs)
        | none => (bm, bs) := by
  induction prs with
  | nil => intro bm bs; rfl
  | cons q t ih =>
    intro bm bs
    rw [List.foldl_cons]
    by_cases hc : bs < scoreOf q ∧ m ≤ scoreOf q
    · have hstep : fbStep m (bm, bs) q = (some q.2, scoreOf q) := by
        unfold fbStep
        rw [if_pos hc]
      rw [hstep]
      have hrm : runMaxQ m (q :: t) bs = runMaxQ m t (scoreOf q) := by
        rw [runMaxQ_cons, if_pos hc]
      by_cases hs : scoreOf q = runMaxQ m t (scoreOf q)
      · rw [ih (some q.2) (scoreOf q)]
        have hnone : t.find? (fun p => decide (scoreOf q < scoreOf p) &&
            decide (m ≤ scoreOf p) && decide (scoreOf p = runMaxQ m t (scoreOf q))) = none := by
          rw [List.find?_eq_none]
          intro p hp
          simp only [Bool.and_eq_true, decide_eq_true_eq]
          rintro ⟨⟨h1, -⟩, h3⟩
          rw [← hs] at h3
          exact absurd h3 (ne_of_gt h1)
        rw [hnone]
        have hhead : (decide (bs < scoreOf q) && decide (m ≤ scoreOf q) &&
            decide (scoreOf q = runMaxQ m (q :: t) bs)) = true := by
          simp only [Bool.and_eq_true, decide_eq_true_eq]
          exact ⟨⟨hc.1, hc.2⟩, by rw [hrm, ← hs]⟩
        rw [find?_cons_true (fun p => decide (bs < scoreOf p) && decide (m ≤ scoreOf p) &&
          decide (scoreOf p = runMaxQ m (q :: t) bs)) q t hhead]
        simp only []
        rw [hrm, ← hs]
      · have hlt : scoreOf q < runMaxQ m t (scoreOf q) :=
          lt_of_le_of_ne (le_runMaxQ m t (scoreOf q)) hs
        rw [ih (some q.2) (scoreOf q)]
        have hcong : t.find? (fun p => decide (scoreOf q < scoreOf p) &&
              decide (m ≤ scoreOf p) && decide (scoreOf p = runMaxQ m t (scoreOf q))) =
            t.find? (fun p => decide (bs < scoreOf p) && decide (m ≤ scoreOf p) &&
              decide (scoreOf p = runMaxQ m (q :: t) bs)) := by
          apply find?_congruent
          intro p _
          rw [hrm]
          by_cases hps : scoreOf p = runMaxQ m t (scoreOf q)
          · have h1 : scoreOf q < scoreOf p := by rw [hps]; exact hlt
            have h2 : bs < scoreOf p := hc.1.trans h1
            rw [decide_eq_true h1, decide_eq_true h2]
          · rw [decide_eq_false hps]
            simp only [Bool.and_false]
        rw [hcong]
        have hheadf : (decide (bs < scoreOf q) && decide (m ≤ scoreOf q) &&
            decide (scoreOf q = runMaxQ m (q :: t) bs)) = false := by
          have h3 : decide (scoreOf q = runMaxQ m (q :: t) bs) = false := by
            rw [hrm]
            exact decide_eq_false hs
          rw [h3]
          simp only [Bool.and_false]
        rw [find?_cons_false (fun p => decide (bs < scoreOf p) && decide (m ≤ scoreOf p) &&
          decide (scoreOf p = runMaxQ m (q :: t) bs)) q t hheadf]
        rw [hrm]
        rcases hfind : t.find? (fun p => decide (bs < scoreOf p) && decide (m ≤ scoreOf p) &&
            decide (scoreOf p = runMaxQ m t (scoreOf q))) with _ | p
        · exfalso
          rcases runMaxQ_attained m t (scoreOf q) with h | ⟨p, hp, hm2, hsc⟩
          · exact hs h.symm
          · rw [List.find?_eq_none] at hfind
            apply hfind p hp
            simp only [Bool.and_eq_true, decide_eq_true_eq]
            refine ⟨⟨?_, hm2⟩, hsc⟩
            rw [hsc]
            exact hc.1.trans hlt
        · rfl
    · have hstep : fbStep m (bm, bs) q = (bm, bs) := by
        unfold fbStep
        rw [if_neg hc]
      rw [hstep]
      have hrm : runMaxQ m (q :: t) bs = runMaxQ m t bs := by
        rw [runMaxQ_cons, if_neg hc]
      rw [ih bm bs, hrm]
      have hheadf : (decide (bs < scoreOf q) && decide (m ≤ scoreOf q) &&
          decide (scoreOf q = runMaxQ m t bs)) = false := by
        rcases hb : (decide (bs < scoreOf q) && decide (m ≤ scoreOf q) &&
            decide (scoreOf q = runMaxQ m t bs)) with _ | _
        · rfl
        · exfalso
          simp only [Bool.and_eq_true, decide_eq_true_eq] at hb
          exact hc ⟨hb.1.1, hb.1.2⟩
      rw [find?_cons_false (fun p => decide (bs < scoreOf p) && decide (m ≤ scoreOf p) &&
        decide (scoreOf p = runMaxQ m t bs)) q t hheadf]

/-- `find_best_column_match` in max/argmax form: when the maximum score
over all pairs reaches the threshold, the result is the column of the
first pair attaining that maximum, with the maximum as score;
otherwise it is (no match, 0.0). Requires a positive threshold (the
default 0.3 is positive). -/
theorem find_best_eq_max_argmax (targets cols : List Str) (m : ℚ) (hm : 0 < m) :
    find_best_column_match targets cols m =
      if m ≤ maxAll (pairsOf targets cols) then
        match (pairsOf targets cols).find?
            (fun p => decide (scoreOf p = maxAll (pairsOf targets cols))) with
        | some p => (some p.2, maxAll (pairsOf targets cols))
        | none => (none, 0)
      else (none, 0) := by
  unfold find_best_column_match
  rw [foldl_fbStep_closed m (pairsOf targets cols) none 0]
  by_cases hM : m ≤ maxAll (pairsOf targets cols)
  · have hrm : runMaxQ m (pairsOf targets cols) 0 = maxAll (pairsOf targets cols) := by
      rcases maxAllFrom_attained (pairsOf targets cols) 0 with h | ⟨p, hp, hsc⟩
      · exfalso
        rw [maxAll_eq_maxAllFrom, h] at hM
        exact absurd hM (not_le.mpr hm)
      · have hmp : m ≤ scoreOf p := by
          rw [hsc, ← maxAll_eq_maxAllFrom]
          exact hM
        apply le_antisymm
        · rw [maxAll_eq_maxAllFrom]
          exact runMaxQ_le_maxAllFrom m (pairsOf targets cols) 0
        · rw [maxAll_eq_maxAllFrom, ← hsc]
          exact scoreOf_le_runMaxQ m (pairsOf targets cols) 0 p hp hmp
    rw [if_pos hM, hrm]
    have hcong : (pairsOf targets cols).find? (fun p => decide ((0:ℚ) < scoreOf p) &&
          decide (m ≤ scoreOf p) && decide (scoreOf p = maxAll (pairsOf targets cols))) =
        (pairsOf targets cols).find?
          (fun p => decide (scoreOf p = maxAll (pairsOf targets cols))) := by
      apply find?_congruent
      intro p _
      by_cases hps : scoreOf p = maxAll (pairsOf targets cols)
      · have h1 : (0:ℚ) < scoreOf p := by
          rw [hps]
          exact hm.trans_le hM
        have h2 : m ≤ scoreOf p := by
          rw [hps]
          exact hM
        rw [decide_eq_true h1, decide_eq_true h2]
        simp only [Bool.true_and]
      · rw [decide_eq_false hps]
        simp only [Bool.and_false]
    rw [hcong]
  · rw [if_neg hM]
    have hall : ∀ p ∈ pairsOf targets cols, ¬ m ≤ scoreOf p := by
      intro p hp hmp
      apply hM
      calc m ≤ scoreOf p := hmp
        _ ≤ maxAllFrom (pairsOf targets cols) 0 :=
            scoreOf_le_maxAllFrom (pairsOf targets cols) 0 p hp
        _ = maxAll (pairsOf targets cols) := (maxAll_eq_maxAllFrom _).symm
    rw [runMaxQ_of_no_eligible m (pairsOf targets cols) hall 0]
    have hnone : (pairsOf targets cols).find? (fun p => decide ((0:ℚ) < scoreOf p) &&
        decide (m ≤ scoreOf p) && decide (scoreOf p = (0:ℚ))) = none := by
      rw [List.find?_eq_none]
      intro p hp
      simp only [Bool.and_eq_true, decide_eq_true_eq]
      rintro ⟨⟨-, h2⟩, -⟩
      exact hall p hp h2
    rw [hnone]

/-- The claim-side mapping of one field equals the code's truthiness
test applied to the result of `find_best_column_match`. -/
theorem mapperSpec_eq_truthiness (aliases df_columns : List Str) :
    mapperSpec aliases df_columns =
      match (find_best_column_match aliases df_columns (Rat.divInt 3 10)).1 with
      | some c => if c.isEmpty then ((none : Option Str), (0:ℚ))
                  else (some c, (find_best_column_match aliases df_columns (Rat.divInt 3 10)).2)
      | none => (none, 0) := by
  rw [find_best_eq_max_argmax aliases df_columns (Rat.divInt 3 10) (by decide)]
  unfold mapperSpec
  by_cases hM : Rat.divInt 3 10 ≤ maxAll (pairsOf aliases df_columns)
  · simp only [if_pos hM]
    rcases hfind : (pairsOf aliases df_columns).find?
        (fun p => decide (scoreOf p = maxAll (pairsOf aliases df_columns))) with _ | p
    · rfl
    · show (if p.2.isEmpty = true then ((none : Option Str), (0:ℚ))
          else (some p.2, maxAll (pairsOf aliases df_columns))) =
        (if p.2.isEmpty = true then ((none : Option Str), (0:ℚ))
          else (some p.2, maxAll (pairsOf aliases df_columns)))
      rfl
  · simp only [if_neg hM]

/-- C3 (amended): column-mapping detection returns one entry per
semantic field and never fails, and per field, independently, it
behaves as the max/argmax reading of the spec — except that when the
best-scoring raw column's name is the empty string, Python's
`if matched_col:` truthiness test maps the field to absent with
confidence 0.0 even though its score reached the 0.3 threshold. -/
theorem auto_detect_eq_mapperSpec (standard_columns : List (Str × List Str))
    (df_columns : List Str) :
    auto_detect_column_mapping standard_columns df_columns =
      standard_columns.map (fun fc => (fc.1, mapperSpec fc.2 df_columns)) := by
  have hentry : ∀ fc : Str × List Str,
      truthyEntry fc df_columns = (fc.1, mapperSpec fc.2 df_columns) := by
    intro fc
    rw [mapperSpec_eq_truthiness]
    show (match (find_best_column_match fc.2 df_columns (Rat.divInt 3 10)).1 with
      | some c => if c.isEmpty then (fc.1, ((none : Option Str), (0:ℚ)))
          else (fc.1, (some c, (find_best_column_match fc.2 df_columns (Rat.divInt 3 10)).2))
      | none => (fc.1, ((none : Option Str), (0:ℚ)))) = _
    rcases hr : (find_best_column_match fc.2 df_columns (Rat.divInt 3 10)).1 with _ | c
    · rfl
    · show (if c.isEmpty = true then (fc.1, ((none : Option Str), (0:ℚ)))
          else (fc.1, (some c,
            (find_best_column_match fc.2 df_columns (Rat.divInt 3 10)).2))) =
        (fc.1, if c.isEmpty = true then ((none : Option Str), (0:ℚ))
          else (some c, (find_best_column_match fc.2 df_columns (Rat.divInt 3 10)).2))
      by_cases he : c.isEmpty = true
      · rw [if_pos he, if_pos he]
      · rw [if_neg he, if_neg he]
  unfold auto_detect_column_mapping
  induction standard_columns with
  | nil => rfl
  | cons fc t ih =>
    rw [List.map_cons, List.map_cons, ih, hentry fc]

/-- C3 counterexample: with the alias list ["stock"] and the single raw
column named "" (empty string), the maximum similarity score is 0.8,
which reaches the 0.3 threshold, yet the field maps to absent with
confidence 0.0 — the claim as stated would map it to the empty-named
column with confidence 0.8. -/
theorem auto_detect_drops_empty_name_column :
    calculate_similarity_score (strLit "stock") [] = Rat.divInt 4 5 ∧
    maxAll (pairsOf [strLit "stock"] [[]]) = Rat.divInt 4 5 ∧
    Rat.divInt 3 10 ≤ Rat.divInt 4 5 ∧
    find_best_column_match [strLit "stock"] [[]] (Rat.divInt 3 10) =
      (some [], Rat.divInt 4 5) ∧
    auto_detect_column_mapping [(strLit "stock_number", [strLit "stock"])] [[]] =
      [(strLit "stock_number", (none, 0))] ∧
    Rat.divInt 4 5 = 4/5 ∧ Rat.divInt 3 10 = 3/10 :=
  ⟨by decide, by decide, by decide, by decide, by decide,
   ratDivInt_four_five, ratDivInt_three_ten⟩
